import Mathlib

/-!
Verification of the batch embedding extraction pipeline of the model
distillation notebook (`model_distillation_colab_notebook.ipynb`).

The notebook converts an ordered list of texts into one pooled embedding
vector per text by slicing the input into fixed-size batches, tokenizing
each batch with fixed-length padding/truncation, running an external
transformer encoder, and mean-pooling the per-token hidden states over the
token axis.  The external collaborators (tokenizer, encoder, classifiers,
dataset) are modelled as function parameters; the notebook logic itself
(batching, padding, pooling, best-model selection, the data handed to the
train/test split) is embedded as executable Lean definitions.

Vectors (per-token hidden states and pooled embeddings) are lists of
rationals; a hidden-state matrix for one sequence is a list of such
vectors, one per token position.
-/

/-- Configuration constant of the notebook: `max_length = 128`, the maximum
sequence length passed to the tokenizer. -/
def max_length : ℕ := 128

/-- Constant hard-coded inside `get_model_embeddings`: `batch_size = 8`. -/
def batch_size : ℕ := 8

/-- One hidden-state vector or pooled embedding: a list of rationals whose
length is the hidden dimensionality D of the encoder. -/
abbrev Vec : Type := List ℚ

/-- Pointwise sum of a list of equal-length vectors: the summation underlying
`last_hidden_state.mean(dim=1)` along the token axis. -/
def vecSum : List Vec → Vec
  | [] => []
  | [v] => v
  | v :: w :: vs => List.zipWith (· + ·) v (vecSum (w :: vs))

/-- `last_hidden_state.mean(dim=1)` for one sequence: the pointwise sum of the
per-token hidden-state vectors divided by the number of token positions. -/
def meanPool (hs : List Vec) : Vec :=
  (vecSum hs).map (fun x => x / (hs.length : ℚ))

/-- The input-id half of `tokenizer(batch, padding="max_length",
truncation=True, max_length=L)` for a single text whose full tokenization is
`ids`: truncate to the first `L` tokens, then pad with `padId` up to length
`L`. -/
def padTruncate (padId : ℕ) (L : ℕ) (ids : List ℕ) : List ℕ :=
  ids.take L ++ List.replicate (L - ids.length) padId

/-- The attention mask the tokenizer returns alongside: `1` on the kept real
token positions, `0` on the padding positions. -/
def attnMask (L : ℕ) (trueLen : ℕ) : List ℕ :=
  List.replicate (min trueLen L) 1 ++ List.replicate (L - trueLen) 0

/-- The body of one loop iteration of `get_model_embeddings`, restricted to a
single text `t`: tokenize with fixed-length padding/truncation to
`max_length`, run the encoder `enc` on the (input ids, attention mask) pair,
and mean-pool the returned hidden states over the token axis.  `tok t` is the
full tokenization of `t` by the external tokenizer and `enc` is the external
encoder, returning one hidden-state vector per token position. -/
def poolText {α : Type} (tok : α → List ℕ) (padId : ℕ)
    (enc : List ℕ → List ℕ → List Vec) (t : α) : Vec :=
  meanPool (enc (padTruncate padId max_length (tok t))
    (attnMask max_length (tok t).length))

/-- The number of loop iterations of `for i in range(0, N, B)`: the number of
batches, `ceil(N / B)`.  Each iteration makes exactly one tokenizer call and
one encoder call, so this is also the number of calls to each. -/
def numBatches (B N : ℕ) : ℕ := (N + B - 1) / B

/-- The batch slices `texts[i:i+B]` for `i in range(0, len(texts), B)`, in
loop order: batch `k` is `(texts.drop (k * B)).take B`. -/
def batches {α : Type} (B : ℕ) (xs : List α) : List (List α) :=
  (List.range (numBatches B xs.length)).map (fun k => (xs.drop (k * B)).take B)

/-- One loop iteration of `get_model_embeddings` on a whole batch.  The
tokenizer with `padding="max_length"` pads every row to the same fixed length
independently of the rest of the batch, and the transformer forward treats
batch rows independently, so the batch-level calls are per-row maps. -/
def processBatch {α : Type} (tok : α → List ℕ) (padId : ℕ)
    (enc : List ℕ → List ℕ → List Vec) (batch : List α) : List Vec :=
  batch.map (poolText tok padId enc)

/-- `get_model_embeddings` with the hard-coded batch size exposed as a
parameter `B`: process the input in consecutive slices `texts[i:i+B]`,
appending each batch of pooled rows, in order, to the running output list. -/
def get_model_embeddingsB {α : Type} (B : ℕ) (tok : α → List ℕ) (padId : ℕ)
    (enc : List ℕ → List ℕ → List Vec) (texts : List α) : List Vec :=
  ((batches B texts).map (processBatch tok padId enc)).flatten

/-- `get_model_embeddings(texts, tokenizer, model)` as in the source, with its
hard-coded `batch_size = 8`. -/
def get_model_embeddings {α : Type} (tok : α → List ℕ) (padId : ℕ)
    (enc : List ℕ → List ℕ → List Vec) (texts : List α) : List Vec :=
  get_model_embeddingsB batch_size tok padId enc texts

/-- The numpy shape of `np.array(rows)` for a list of equal-length rows, as
the extractor returns it: `np.array([])` is one-dimensional with shape
`(0,)`; a non-empty list of `n` rows of length `d` yields shape `(n, d)`. -/
def npShape (rows : List Vec) : List ℕ :=
  match rows with
  | [] => [0]
  | r :: _ => [rows.length, r.length]

/-- Ceiling division steps down by one batch: for a non-empty input, the
number of batches is one more than the number of batches of the input with
its first `B` elements removed. -/
lemma numBatches_succ (B N : ℕ) (hB : 0 < B) (hN : 0 < N) :
    numBatches B N = numBatches B (N - B) + 1 := by
  unfold numBatches
  rcases le_or_lt N B with h | h
  · have e2 : N - B = 0 := by omega
    have e1 : N + B - 1 = (N - 1) + B := by omega
    rw [e1, e2, Nat.add_div_right _ hB]
    have h3 : (N - 1) / B = 0 := Nat.div_eq_of_lt (by omega)
    have h4 : (0 + B - 1) / B = 0 := Nat.div_eq_of_lt (by omega)
    rw [h3, h4]
  · have e1 : N + B - 1 = ((N - 1 - B) + B) + B := by omega
    have e2 : N - B + B - 1 = (N - 1 - B) + B := by omega
    rw [e1, e2, Nat.add_div_right _ hB, Nat.add_div_right _ hB]

/-- The loop processes the first `B` texts as one batch and then continues on
the rest: the batch list of a non-empty input is its `B`-prefix followed by
the batch list of the remainder. -/
lemma batches_cons {α : Type} (B : ℕ) (hB : 0 < B) (xs : List α)
    (hxs : xs ≠ []) :
    batches B xs = xs.take B :: batches B (xs.drop B) := by
  unfold batches
  have hN : 0 < xs.length := List.length_pos.mpr hxs
  rw [numBatches_succ B xs.length hB hN, List.range_succ_eq_map,
    List.map_cons, List.map_map, List.length_drop]
  congr 1
  · simp
  · apply List.map_congr_left
    intro k _
    show ((xs.drop ((k + 1) * B)).take B) = (((xs.drop B).drop (k * B)).take B)
    rw [List.drop_drop]
    congr 1
    rw [Nat.add_mul, Nat.one_mul, Nat.add_comm]

/-- Concatenating the batch slices, in loop order, recovers the input: the
batching is a partition into consecutive slices. -/
lemma batches_join {α : Type} (B : ℕ) (hB : 0 < B) (xs : List α) :
    (batches B xs).flatten = xs := by
  generalize hn : xs.length = n
  induction n using Nat.strong_induction_on generalizing xs with
  | _ n ih =>
    cases xs with
    | nil =>
      have : numBatches B 0 = 0 := Nat.div_eq_of_lt (by omega)
      simp [batches, this]
    | cons x l =>
      have hlt : ((x :: l).drop B).length < n := by
        rw [List.length_drop, ← hn, List.length_cons]
        omega
      rw [batches_cons B hB _ (by simp), List.flatten_cons,
        ih ((x :: l).drop B).length hlt _ rfl, List.take_append_drop]

/-- With a positive batch size the loop output is the per-text pooled
embedding map over the whole input, in input order. -/
lemma get_model_embeddingsB_eq_map {α : Type} (B : ℕ) (hB : 0 < B)
    (tok : α → List ℕ) (padId : ℕ) (enc : List ℕ → List ℕ → List Vec)
    (texts : List α) :
    get_model_embeddingsB B tok padId enc texts
      = texts.map (poolText tok padId enc) := by
  unfold get_model_embeddingsB processBatch
  rw [← List.map_flatten, batches_join B hB]

/-- `get_model_embeddings` is the per-text pooled embedding map. -/
lemma get_model_embeddings_eq_map {α : Type} (tok : α → List ℕ) (padId : ℕ)
    (enc : List ℕ → List ℕ → List Vec) (texts : List α) :
    get_model_embeddings tok padId enc texts
      = texts.map (poolText tok padId enc) :=
  get_model_embeddingsB_eq_map batch_size (by decide) tok padId enc texts

/-- Concrete tokenizer for witnesses and counterexamples: texts are modelled
as natural numbers, and text `n` tokenizes to the single token id `n`. -/
def tokSelf : ℕ → List ℕ := fun n => [n]

/-- Concrete encoder for witnesses: it ignores its input and returns
`max_length` copies of the one-dimensional hidden-state vector `[1]`. -/
def encConst : List ℕ → List ℕ → List Vec :=
  fun _ _ => List.replicate max_length [1]

/-- C1: for every input list of texts, `get_model_embeddings` returns exactly
as many rows as there are input texts, and row `i` is the pooled embedding of
input text `i`; no row is reordered or filtered. -/
theorem C1_row_per_text_in_order {α : Type} (tok : α → List ℕ) (padId : ℕ)
    (enc : List ℕ → List ℕ → List Vec) (texts : List α) :
    (get_model_embeddings tok padId enc texts).length = texts.length ∧
    ∀ i : ℕ, (get_model_embeddings tok padId enc texts)[i]?
      = (texts[i]?).map (poolText tok padId enc) := by
  rw [get_model_embeddings_eq_map]
  exact ⟨List.length_map _ _, fun i => List.getElem?_map ..⟩

/-- C4: for every corpus and every positive batch size, concatenating the
per-batch pooled outputs in batch order (which is what the loop of
`get_model_embeddings` produces) equals processing the whole corpus as a
single batch through the same encoder: where the batch boundaries fall does
not affect the result. -/
theorem C4_batch_size_invariance {α : Type} (B : ℕ) (tok : α → List ℕ)
    (padId : ℕ) (enc : List ℕ → List ℕ → List Vec) (texts : List α)
    (hB : 0 < B) :
    get_model_embeddingsB B tok padId enc texts
      = processBatch tok padId enc texts := by
  rw [get_model_embeddingsB_eq_map B hB]
  rfl

/-- C4 witness: batch size 3 on a concrete five-text corpus. -/
theorem C4_batch_size_invariance_witness :
    (0 < 3) ∧
    get_model_embeddingsB 3 tokSelf 0 encConst [10, 11, 12, 13, 14]
      = processBatch tokSelf 0 encConst [10, 11, 12, 13, 14] :=
  ⟨by decide, C4_batch_size_invariance 3 tokSelf 0 encConst _ (by decide)⟩

/-- C7: running the extractor twice on the same texts with the same tokenizer
and the same deterministic encoder state yields identical output arrays; the
function reads and mutates nothing besides its arguments, so equal arguments
give equal results. -/
theorem C7_two_run_determinism {α : Type} (tok1 tok2 : α → List ℕ)
    (padId1 padId2 : ℕ) (enc1 enc2 : List ℕ → List ℕ → List Vec)
    (texts1 texts2 : List α) (htok : tok1 = tok2) (hpad : padId1 = padId2)
    (henc : enc1 = enc2) (htexts : texts1 = texts2) :
    get_model_embeddings tok1 padId1 enc1 texts1
      = get_model_embeddings tok2 padId2 enc2 texts2 := by
  rw [htok, hpad, henc, htexts]

/-- C7 witness: two runs on the concrete two-text corpus `[1, 2]`. -/
theorem C7_two_run_determinism_witness :
    (tokSelf = tokSelf ∧ (0 : ℕ) = 0 ∧ encConst = encConst
      ∧ ([1, 2] : List ℕ) = [1, 2]) ∧
    get_model_embeddings tokSelf 0 encConst [1, 2]
      = get_model_embeddings tokSelf 0 encConst [1, 2] :=
  ⟨⟨rfl, rfl, rfl, rfl⟩,
    C7_two_run_determinism tokSelf tokSelf 0 0 encConst encConst [1, 2] [1, 2]
      rfl rfl rfl rfl⟩

/-- C6: the extractor partitions the input into consecutive batches of size
at most `B` whose concatenation is the input, every batch but the last of
size exactly `B`; a corpus of length `B + 1` is processed as exactly the two
batches `[first B texts, last text]`, and the single pooled row of the second
batch is appended after the `B` rows of the first. -/
theorem C6_batch_partition {α : Type} (B : ℕ) (tok : α → List ℕ) (padId : ℕ)
    (enc : List ℕ → List ℕ → List Vec) (xs : List α) (hB : 0 < B) :
    (batches B xs).flatten = xs ∧
    (∀ b ∈ batches B xs, b.length ≤ B) ∧
    (∀ i : ℕ, i + 1 < (batches B xs).length →
      ∀ b, (batches B xs)[i]? = some b → b.length = B) ∧
    (xs.length = B + 1 →
      batches B xs = [xs.take B, xs.drop B] ∧ (xs.drop B).length = 1 ∧
      get_model_embeddingsB B tok padId enc xs
        = processBatch tok padId enc (xs.take B)
            ++ processBatch tok padId enc (xs.drop B)) := by
  refine ⟨batches_join B hB xs, ?_, ?_, ?_⟩
  · intro b hb
    unfold batches at hb
    obtain ⟨k, _, rfl⟩ := List.mem_map.mp hb
    exact List.length_take_le B _
  · intro i hi b hb
    unfold batches at hi hb
    rw [List.length_map, List.length_range] at hi
    rw [List.getElem?_map, List.getElem?_range (by omega)] at hb
    simp only [Option.map_some', Option.some.injEq] at hb
    have h1 : (i + 2) * B ≤ xs.length + B - 1 :=
      (Nat.le_div_iff_mul_le hB).mp (by unfold numBatches at hi; omega)
    have h2 : i * B + 2 * B = (i + 2) * B := by ring
    rw [← hb, List.length_take, List.length_drop]
    omega
  · intro hlen
    have h2 : numBatches B xs.length = 2 := by
      unfold numBatches
      rw [hlen]
      have e : B + 1 + B - 1 = 2 * B := by omega
      rw [e, Nat.mul_div_cancel _ hB]
    have hdrop : (xs.drop B).length = 1 := by
      rw [List.length_drop, hlen]
      omega
    have hbs : batches B xs = [xs.take B, xs.drop B] := by
      unfold batches
      rw [h2]
      have e : List.range 2 = [0, 1] := rfl
      rw [e, List.map_cons, List.map_cons, List.map_nil]
      rw [Nat.zero_mul, Nat.one_mul, List.drop_zero]
      rw [List.take_of_length_le (by omega : (xs.drop B).length ≤ B)]
    refine ⟨hbs, hdrop, ?_⟩
    unfold get_model_embeddingsB
    rw [hbs]
    simp

/-- C6 witness: batch size 2 on the three-text corpus `[5, 6, 7]`. -/
theorem C6_batch_partition_witness :
    (0 < 2) ∧
    ((batches 2 ([5, 6, 7] : List ℕ)).flatten = [5, 6, 7] ∧
     (∀ b ∈ batches 2 ([5, 6, 7] : List ℕ), b.length ≤ 2) ∧
     (∀ i : ℕ, i + 1 < (batches 2 ([5, 6, 7] : List ℕ)).length →
       ∀ b, (batches 2 ([5, 6, 7] : List ℕ))[i]? = some b → b.length = 2) ∧
     (([5, 6, 7] : List ℕ).length = 2 + 1 →
       batches 2 ([5, 6, 7] : List ℕ)
         = [([5, 6, 7] : List ℕ).take 2, ([5, 6, 7] : List ℕ).drop 2] ∧
       (([5, 6, 7] : List ℕ).drop 2).length = 1 ∧
       get_model_embeddingsB 2 tokSelf 0 encConst [5, 6, 7]
         = processBatch tokSelf 0 encConst (([5, 6, 7] : List ℕ).take 2)
             ++ processBatch tokSelf 0 encConst (([5, 6, 7] : List ℕ).drop 2))) :=
  ⟨by decide, C6_batch_partition 2 tokSelf 0 encConst [5, 6, 7] (by decide)⟩

/-- C3 (amended): on the empty input the extractor returns the empty list of
rows — `np.array([])`, whose numpy shape is `(0,)`, one-dimensional with no
second axis — and the loop runs zero batches, so the tokenizer and the
encoder are invoked zero times. -/
theorem C3_empty_input {α : Type} (tok : α → List ℕ) (padId : ℕ)
    (enc : List ℕ → List ℕ → List Vec) :
    get_model_embeddings tok padId enc ([] : List α) = [] ∧
    npShape (get_model_embeddings tok padId enc ([] : List α)) = [0] ∧
    numBatches batch_size ([] : List α).length = 0 := by
  refine ⟨?_, ?_, ?_⟩
  · rw [get_model_embeddings_eq_map]
    exact rfl
  · rw [get_model_embeddings_eq_map]
    exact rfl
  · rw [List.length_nil]
    exact rfl

/-- C3 counterexample: the claim says the empty input yields an array of
two-dimensional shape `(0, D)`; with the concrete encoder `encConst`, whose
hidden dimensionality is `D = 1`, the returned `np.array([])` has the
one-dimensional shape `(0,)`, not `(0, 1)`. -/
theorem C3_empty_shape_counterexample :
    npShape (get_model_embeddings tokSelf 0 encConst ([] : List ℕ))
      ≠ [0, 1] := by
  decide

/-- The real-token positions a mask keeps: the hidden-state vectors at the
positions whose attention-mask entry is `1`. -/
def maskedKept (hs : List Vec) (mask : List ℕ) : List Vec :=
  (hs.zip mask).filterMap (fun p => if p.2 = 1 then some p.1 else none)

/-- Modelled from the spec: the mask-restricted mean pooling the spec
prescribes, the arithmetic mean of the hidden-state vectors over only the
positions whose attention-mask entry is `1` (the real, non-padding token
positions).  This definition follows the words of the spec and exists for
comparison with the pooling the source performs. -/
def maskedMeanPool (hs : List Vec) (mask : List ℕ) : Vec :=
  meanPool (maskedKept hs mask)

/-- Counterexample encoder for C2: the hidden-state vector at a position is
`[2]` when the attention-mask entry there is `1` and `[0]` on padding
positions (the encoder receives the attention mask, so its per-position
output may depend on it). -/
def encMaskDep : List ℕ → List ℕ → List Vec :=
  fun _ mask => mask.map (fun m => [if m = 1 then (2 : ℚ) else 0])

/-- The pointwise sum of a vector followed by any number of scalar zero
vectors is the vector itself. -/
lemma vecSum_cons_repl_zero (n : ℕ) :
    ∀ q : ℚ, vecSum ([q] :: List.replicate n ([0] : Vec)) = [q] := by
  induction n with
  | zero =>
    intro q
    rfl
  | succ m ih =>
    intro q
    rw [List.replicate_succ]
    show List.zipWith (· + ·) [q]
      (vecSum (([0] : Vec) :: List.replicate m ([0] : Vec))) = [q]
    rw [ih 0]
    show [q + 0] = [q]
    rw [add_zero]

/-- Mean pooling a single hidden-state vector returns that vector. -/
lemma meanPool_single (v : Vec) : meanPool [v] = v := by
  show (vecSum [v]).map (fun x => x / ((1 : ℕ) : ℚ)) = v
  have h : vecSum [v] = v := rfl
  rw [h]
  simp

/-- A mask of a leading one followed by zeros keeps only the head vector. -/
lemma maskedKept_one_zeros (v : Vec) (w : Vec) (n : ℕ) :
    maskedKept (v :: List.replicate n w) (1 :: List.replicate n 0) = [v] := by
  unfold maskedKept
  show v :: ((List.replicate n w).zip (List.replicate n 0)).filterMap
      (fun p => if p.2 = 1 then some p.1 else none) = [v]
  rw [List.zip_replicate, Nat.min_self]
  have hnone : ∀ k : ℕ, (List.replicate k ((w, 0) : Vec × ℕ)).filterMap
      (fun p => if p.2 = 1 then some p.1 else none) = [] := by
    intro k
    induction k with
    | zero => rfl
    | succ m ih =>
      rw [List.replicate_succ]
      show (List.replicate m ((w, 0) : Vec × ℕ)).filterMap
          (fun p => if p.2 = 1 then some p.1 else none) = []
      exact ih
  rw [hnone n]

/-- C2 counterexample: for the one-token text `5` (true token length 1, well
below `max_length`) under the mask-dependent encoder, the extractor pools to
`[2/128]` — the padding positions are averaged in — while the mean over only
the real token positions is `[2]`: the two differ, so the claim fails on the
code. -/
theorem C2_masked_pooling_counterexample :
    poolText tokSelf 0 encMaskDep 5
      ≠ maskedMeanPool
          (encMaskDep (padTruncate 0 max_length (tokSelf 5))
            (attnMask max_length (tokSelf 5).length))
          (attnMask max_length (tokSelf 5).length) := by
  have hmask : attnMask max_length (tokSelf 5).length
      = 1 :: List.replicate 127 0 := by
    decide
  have hhs : encMaskDep (padTruncate 0 max_length (tokSelf 5))
      (attnMask max_length (tokSelf 5).length)
      = ([2] : Vec) :: List.replicate 127 [0] := by
    rw [hmask]
    unfold encMaskDep
    rw [List.map_cons, List.map_replicate]
    norm_num
  have hlhs : poolText tokSelf 0 encMaskDep 5 = [2 / 128] := by
    unfold poolText
    rw [hhs]
    unfold meanPool
    rw [vecSum_cons_repl_zero 127 2]
    simp
  have hrhs : maskedMeanPool
      (encMaskDep (padTruncate 0 max_length (tokSelf 5))
        (attnMask max_length (tokSelf 5).length))
      (attnMask max_length (tokSelf 5).length) = [2] := by
    rw [hhs, hmask]
    unfold maskedMeanPool
    rw [maskedKept_one_zeros, meanPool_single]
  rw [hlhs, hrhs]
  intro h
  have h2 : (2 / 128 : ℚ) = 2 := List.head_eq_of_cons_eq h
  norm_num at h2

/-- Padding and truncating to `L` always yields exactly `L` token ids. -/
lemma padTruncate_length (padId L : ℕ) (ids : List ℕ) :
    (padTruncate padId L ids).length = L := by
  unfold padTruncate
  rw [List.length_append, List.length_take, List.length_replicate]
  omega

/-- A sequence of exactly the maximum length is neither truncated nor
padded. -/
lemma padTruncate_of_length_eq (padId L : ℕ) (ids : List ℕ)
    (h : ids.length = L) : padTruncate padId L ids = ids := by
  unfold padTruncate
  rw [List.take_of_length_le (le_of_eq h), h, Nat.sub_self,
    List.replicate_zero, List.append_nil]

/-- The attention mask of a sequence filling the whole window is all ones. -/
lemma attnMask_self (L : ℕ) : attnMask L L = List.replicate L 1 := by
  unfold attnMask
  rw [Nat.min_self, Nat.sub_self, List.replicate_zero, List.append_nil]

/-- An all-ones mask keeps every hidden-state vector. -/
lemma maskedKept_ones (hs : List Vec) (n : ℕ) (h : hs.length ≤ n) :
    maskedKept hs (List.replicate n 1) = hs := by
  induction hs generalizing n with
  | nil => simp [maskedKept]
  | cons v vs ih =>
    cases n with
    | zero => exact absurd h (by simp)
    | succ m =>
      rw [List.replicate_succ]
      unfold maskedKept at ih ⊢
      show v :: (vs.zip (List.replicate m 1)).filterMap
          (fun p => if p.2 = 1 then some p.1 else none) = v :: vs
      rw [ih m (by simpa using h)]

/-- C2 (amended): the extractor includes the padding positions in its
average, so the mask-restricted mean of the claim is attained exactly in the
boundary case: for a text whose true token length equals `max_length` (no
padding and no truncation occur) the pooled vector equals the
mask-restricted mean of the hidden-state vectors, which is the mean over the
unpadded, un-truncated sequence. -/
theorem C2_masked_pooling_amended {α : Type} (tok : α → List ℕ) (padId : ℕ)
    (enc : List ℕ → List ℕ → List Vec) (t : α)
    (hlen : (tok t).length = max_length)
    (henc : ∀ ids mask, (enc ids mask).length = max_length) :
    poolText tok padId enc t
      = maskedMeanPool (enc (tok t) (List.replicate max_length 1))
          (List.replicate max_length 1) ∧
    poolText tok padId enc t
      = meanPool (enc (tok t) (List.replicate max_length 1)) := by
  have hpad : padTruncate padId max_length (tok t) = tok t :=
    padTruncate_of_length_eq _ _ _ hlen
  have hmask : attnMask max_length (tok t).length
      = List.replicate max_length 1 := by
    rw [hlen]
    exact attnMask_self max_length
  constructor
  · unfold poolText maskedMeanPool
    rw [hpad, hmask, maskedKept_ones _ _ (le_of_eq (henc _ _))]
  · unfold poolText
    rw [hpad, hmask]

/-- Concrete tokenizer whose texts fill the whole window: text `n` tokenizes
to `max_length` copies of the token id `n`. -/
def tokFull : ℕ → List ℕ := fun n => List.replicate max_length n

/-- C2 witness: the amended claim at the concrete full-window text `3` under
the constant encoder. -/
theorem C2_masked_pooling_amended_witness :
    ((tokFull 3).length = max_length
      ∧ ∀ ids mask, (encConst ids mask).length = max_length) ∧
    (poolText tokFull 0 encConst 3
       = maskedMeanPool (encConst (tokFull 3) (List.replicate max_length 1))
           (List.replicate max_length 1) ∧
     poolText tokFull 0 encConst 3
       = meanPool (encConst (tokFull 3) (List.replicate max_length 1))) :=
  ⟨⟨by simp [tokFull], fun ids mask => by simp [encConst]⟩,
    C2_masked_pooling_amended tokFull 0 encConst 3 (by simp [tokFull])
      (fun ids mask => by simp [encConst])⟩

/-- C10: tokenization pads every text to the fixed length `max_length = 128`
and the pooling averages over the full sequence axis without consulting the
attention mask, so for every non-empty text the pooled vector is the sum of
the hidden-state vectors over all 128 token positions divided by exactly
128, whatever the true token length of the text. -/
theorem C10_padding_included_in_mean {α : Type} (tok : α → List ℕ)
    (padId : ℕ) (enc : List ℕ → List ℕ → List Vec) (t : α)
    (_hne : tok t ≠ [])
    (henc : ∀ ids mask, (enc ids mask).length = max_length) :
    (padTruncate padId max_length (tok t)).length = 128 ∧
    poolText tok padId enc t
      = (vecSum (enc (padTruncate padId max_length (tok t))
            (attnMask max_length (tok t).length))).map
          (fun x => x / (128 : ℚ)) := by
  constructor
  · exact padTruncate_length padId max_length (tok t)
  · unfold poolText meanPool
    rw [henc]
    norm_num [max_length]

/-- C10 witness: the one-token text `5` under the constant encoder. -/
theorem C10_padding_included_in_mean_witness :
    (tokSelf 5 ≠ [] ∧ ∀ ids mask, (encConst ids mask).length = max_length) ∧
    ((padTruncate 0 max_length (tokSelf 5)).length = 128 ∧
     poolText tokSelf 0 encConst 5
       = (vecSum (encConst (padTruncate 0 max_length (tokSelf 5))
             (attnMask max_length (tokSelf 5).length))).map
           (fun x => x / (128 : ℚ))) :=
  ⟨⟨by decide, fun ids mask => by simp [encConst]⟩,
    C10_padding_included_in_mean tokSelf 0 encConst 5 (by decide)
      (fun ids mask => by simp [encConst])⟩

/-- Step 5 of the notebook: the initial corpus `train[:n]` — the first `n`
texts of the IMDB train split, with `train` abstracting the external dataset
as a function from split index to text and `n` the `num_samples`
configuration constant (1000 in the notebook). -/
def texts_initial {α : Type} (train : ℕ → α) (n : ℕ) : List α :=
  (List.range n).map train

/-- Step 8 (Fix 1) of the notebook: the rebalanced corpus
`train[0:n/2] ++ train[12500:12500+n/2]`. -/
def texts_balanced {α : Type} (train : ℕ → α) (n : ℕ) : List α :=
  ((List.range (n / 2)).map train)
    ++ ((List.range (n / 2)).map (fun i => train (12500 + i)))

/-- The train-split index from which element `i` of the rebalanced corpus is
drawn: `i` itself in the first half, `12500 + (i - n/2)` in the second. -/
def balancedIndex (n i : ℕ) : ℕ :=
  if i < n / 2 then i else 12500 + (i - n / 2)

/-- Step 8 (Fix 1) of the notebook: the labels of the rebalanced corpus,
`labelOf j` being the label of train text `j`. -/
def labels_balanced (labelOf : ℕ → ℕ) (n : ℕ) : List ℕ :=
  ((List.range (n / 2)).map labelOf)
    ++ ((List.range (n / 2)).map (fun i => labelOf (12500 + i)))

/-- The (X, y) rows handed to `train_test_split` in Step 8: the embedding
matrix the notebook computed in Step 7 from the INITIAL corpus, zipped with
the labels of the REBALANCED corpus.  The embeddings are never recomputed
after the corpus is rebalanced.  `train_test_split` itself permutes X and y
rows jointly (an external, pairing-preserving operation), so the
text-label-embedding correspondence at the split is exactly that of this
zip. -/
def split_input {α : Type} (train : ℕ → α) (labelOf : ℕ → ℕ) (n : ℕ)
    (tok : α → List ℕ) (padId : ℕ) (enc : List ℕ → List ℕ → List Vec) :
    List (Vec × ℕ) :=
  (get_model_embeddings tok padId enc (texts_initial train n)).zip
    (labels_balanced labelOf n)

/-- Concrete IMDB-like labelling: train texts with index below 12500 carry
label 0 (negative), the rest label 1 (positive), matching the train-split
layout the notebook indexes into. -/
def labelIMDB : ℕ → ℕ := fun i => if i < 12500 then 0 else 1

/-- Concrete encoder for the C5 evaluation: a single hidden-state vector
whose one entry records whether the first token id is at least 12500 — it
distinguishes exactly the texts that the pairing confuses. -/
def encHead : List ℕ → List ℕ → List Vec :=
  fun ids _ => [[if ids.headI < 12500 then (0 : ℚ) else 1]]

/-- Under `encHead`, the pooled embedding of train text `n` (texts modelled
as their own indices) is `[0]` for indices below 12500 and `[1]` above. -/
lemma poolText_encHead (n : ℕ) :
    poolText tokSelf 0 encHead n = [if n < 12500 then (0 : ℚ) else 1] := by
  unfold poolText
  have hh : encHead (padTruncate 0 max_length (tokSelf n))
      (attnMask max_length (tokSelf n).length)
      = [[if n < 12500 then (0 : ℚ) else 1]] := by
    unfold encHead
    have hhead : (padTruncate 0 max_length (tokSelf n)).headI = n := rfl
    rw [hhead]
  rw [hh, meanPool_single]

/-- C5, evaluated at the failing input (the configuration `num_samples = 4`,
keeping the notebook pipeline otherwise unchanged): row 2 of the data handed
to `train_test_split` pairs the embedding extracted from train text 2 — the
pooled value `[0]` — with label 1, which is the label of train text 12500 of
the rebalanced corpus; the embedding of the text that label belongs to is
`[1] ≠ [0]`.  The row therefore pairs an embedding and a label of two
different texts, refuting the claimed correspondence. -/
theorem C5_stale_embedding_pairing :
    (split_input (fun i => i) labelIMDB 4 tokSelf 0 encHead)[2]?
      = some ([(0 : ℚ)], 1) ∧
    balancedIndex 4 2 = 12500 ∧
    poolText tokSelf 0 encHead ((fun i => i) (balancedIndex 4 2))
      = [(1 : ℚ)] ∧
    ([(0 : ℚ)] : Vec) ≠ [(1 : ℚ)] := by
  have hemb : get_model_embeddings tokSelf 0 encHead
      (texts_initial (fun i => i) 4) = [[0], [0], [0], [0]] := by
    rw [get_model_embeddings_eq_map]
    have htexts : texts_initial (fun i => i) 4 = [0, 1, 2, 3] := rfl
    rw [htexts]
    rw [List.map_cons, List.map_cons, List.map_cons, List.map_cons,
      List.map_nil, poolText_encHead, poolText_encHead, poolText_encHead,
      poolText_encHead]
    norm_num
  have hlab : labels_balanced labelIMDB 4 = [0, 0, 1, 1] := by decide
  refine ⟨?_, by decide, ?_, by simp⟩
  · unfold split_input
    rw [hemb, hlab]
    rfl
  · rw [poolText_encHead]
    norm_num [balancedIndex]

/-- Exception-level model of the extractor loop: the external tokenizer and
encoder may raise (`Except.error e` with `e` an opaque external-library
error).  One loop iteration makes one tokenizer call on the whole batch,
returning the tokenized batch of type `T`, and one encoder call on its
output, returning the per-row hidden states.  The notebook wraps neither
call in any handler, so the first raise aborts the loop and propagates
unchanged, and no rows are returned; only a run in which every call
succeeds returns the concatenated pooled rows. -/
def runBatchesE {α ε T : Type} (tokB : List α → Except ε T)
    (encB : T → Except ε (List (List Vec))) :
    List (List α) → Except ε (List Vec)
  | [] => Except.ok []
  | b :: bs =>
    match tokB b with
    | Except.error e => Except.error e
    | Except.ok t =>
      match encB t with
      | Except.error e => Except.error e
      | Except.ok hs =>
        match runBatchesE tokB encB bs with
        | Except.error e => Except.error e
        | Except.ok rest => Except.ok (hs.map meanPool ++ rest)

/-- `get_model_embeddings` at the exception level: the loop body run over
the batch slices of the input. -/
def get_model_embeddingsE {α ε T : Type} (B : ℕ)
    (tokB : List α → Except ε T) (encB : T → Except ε (List (List Vec)))
    (texts : List α) : Except ε (List Vec) :=
  runBatchesE tokB encB (batches B texts)

/-- The loop returns rows exactly when every tokenizer and encoder call on
its batches succeeds. -/
lemma runBatchesE_ok_iff {α ε T : Type} (tokB : List α → Except ε T)
    (encB : T → Except ε (List (List Vec))) (bs : List (List α)) :
    (∃ v, runBatchesE tokB encB bs = Except.ok v) ↔
      ∀ b ∈ bs, ∃ t hs, tokB b = Except.ok t ∧ encB t = Except.ok hs := by
  induction bs with
  | nil =>
    constructor
    · intro _ c hc
      exact absurd hc (List.not_mem_nil c)
    · intro _
      exact ⟨[], rfl⟩
  | cons b bs ih =>
    rcases htok : tokB b with e | t
    · constructor
      · rintro ⟨v, hv⟩
        rw [show runBatchesE tokB encB (b :: bs) = Except.error e by
          simp [runBatchesE, htok]] at hv
        exact absurd hv (by simp)
      · intro hall
        obtain ⟨t, hs, ht, _⟩ := hall b (by simp)
        rw [htok] at ht
        exact absurd ht (by simp)
    · rcases henc : encB t with e | hs
      · constructor
        · rintro ⟨v, hv⟩
          rw [show runBatchesE tokB encB (b :: bs) = Except.error e by
            simp [runBatchesE, htok, henc]] at hv
          exact absurd hv (by simp)
        · intro hall
          obtain ⟨t2, hs2, ht2, he2⟩ := hall b (by simp)
          rw [htok] at ht2
          have ht3 : t = t2 := by
            simpa using ht2
          rw [← ht3] at he2
          rw [henc] at he2
          exact absurd he2 (by simp)
      · constructor
        · rintro ⟨v, hv⟩
          intro c hc
          rcases List.mem_cons.mp hc with rfl | hc2
          · exact ⟨t, hs, htok, henc⟩
          · rcases hrest : runBatchesE tokB encB bs with e | rest
            · rw [show runBatchesE tokB encB (b :: bs) = Except.error e by
                simp [runBatchesE, htok, henc, hrest]] at hv
              exact absurd hv (by simp)
            · exact (ih.mp ⟨rest, hrest⟩) c hc2
        · intro hall
          obtain ⟨vrest, hvrest⟩ :=
            ih.mpr (fun c hc => hall c (List.mem_cons_of_mem b hc))
          exact ⟨hs.map meanPool ++ vrest,
            by simp [runBatchesE, htok, henc, hvrest]⟩

/-- A failing loop run surfaces exactly the error of a failing external
call on one of its batches. -/
lemma runBatchesE_error {α ε T : Type} (tokB : List α → Except ε T)
    (encB : T → Except ε (List (List Vec))) (e : ε) :
    ∀ bs : List (List α), runBatchesE tokB encB bs = Except.error e →
      ∃ b ∈ bs, tokB b = Except.error e ∨
        ∃ t, tokB b = Except.ok t ∧ encB t = Except.error e := by
  intro bs
  induction bs with
  | nil =>
    intro h
    exact absurd h (by simp [runBatchesE])
  | cons b bs ih =>
    intro h
    rcases htok : tokB b with e2 | t
    · have he2 : e2 = e := by
        rw [show runBatchesE tokB encB (b :: bs) = Except.error e2 by
          simp [runBatchesE, htok]] at h
        simpa using h
      subst he2
      exact ⟨b, by simp, Or.inl htok⟩
    · rcases henc : encB t with e2 | hs
      · have he2 : e2 = e := by
          rw [show runBatchesE tokB encB (b :: bs) = Except.error e2 by
            simp [runBatchesE, htok, henc]] at h
          simpa using h
        subst he2
        exact ⟨b, by simp, Or.inr ⟨t, htok, henc⟩⟩
      · rcases hrest : runBatchesE tokB encB bs with e2 | rest
        · have he2 : e2 = e := by
            rw [show runBatchesE tokB encB (b :: bs) = Except.error e2 by
              simp [runBatchesE, htok, henc, hrest]] at h
            simpa using h
          subst he2
          obtain ⟨c, hc, hw⟩ := ih hrest
          exact ⟨c, List.mem_cons_of_mem b hc, hw⟩
        · rw [show runBatchesE tokB encB (b :: bs)
              = Except.ok (hs.map meanPool ++ rest) by
            simp [runBatchesE, htok, henc, hrest]] at h
          exact absurd h (by simp)

/-- C8: the extractor fails exactly when some tokenizer or encoder call on a
batch fails; a raised error is surfaced unchanged — the result carries
exactly the error value of a failing external call — and on failure no rows
are returned (the result is either the full row list or a bare error, never
a partial row list). -/
theorem C8_error_propagation {α ε T : Type} (B : ℕ)
    (tokB : List α → Except ε T) (encB : T → Except ε (List (List Vec)))
    (texts : List α) :
    ((∃ v, get_model_embeddingsE B tokB encB texts = Except.ok v) ↔
      ∀ b ∈ batches B texts, ∃ t hs,
        tokB b = Except.ok t ∧ encB t = Except.ok hs) ∧
    (∀ e, get_model_embeddingsE B tokB encB texts = Except.error e →
      (∃ b ∈ batches B texts, tokB b = Except.error e ∨
        ∃ t, tokB b = Except.ok t ∧ encB t = Except.error e) ∧
      ∀ v, get_model_embeddingsE B tokB encB texts ≠ Except.ok v) := by
  refine ⟨runBatchesE_ok_iff tokB encB (batches B texts), ?_⟩
  intro e he
  refine ⟨runBatchesE_error tokB encB e (batches B texts) he, ?_⟩
  intro v hv
  rw [he] at hv
  exact absurd hv (by simp)

/-- The keys of the `models` dictionary of Step 9, in insertion order. -/
def model_names : List String :=
  ["Logistic Regression", "Random Forest", "MLP (Neural Network)"]

/-- Python `max(iterable, key=k)`: the first element attaining the maximal
key — a later element replaces the current best only when its key is
strictly greater. -/
def pythonMaxBy {β : Type} (k : β → ℚ) : List β → Option β
  | [] => none
  | x :: xs =>
    some (xs.foldl (fun best y => if k best < k y then y else best) x)

/-- `best_model_name = max(results, key=results.get)` of Step 10, `results`
holding one test-set accuracy per trained student model, keyed by
`model_names` in insertion order; `acc` maps a model name to its test
accuracy. -/
def best_model_name (acc : String → ℚ) : Option String :=
  pythonMaxBy acc model_names

/-- Step 11: `best_model = models[best_model_name]` followed by
`joblib.dump(best_model, 'distilled_model.joblib')` — the serialized
artifact is the classifier the `models` dictionary binds to the best name;
`models` maps a name to its (opaque) trained classifier. -/
def saved_model {C : Type} (models : String → C) (acc : String → ℚ) :
    Option C :=
  (best_model_name acc).map models

/-- The Python max-by fold returns one of the candidates. -/
lemma foldl_maxBy_mem {β : Type} (k : β → ℚ) :
    ∀ (xs : List β) (x : β),
      xs.foldl (fun best y => if k best < k y then y else best) x ∈ x :: xs := by
  intro xs
  induction xs with
  | nil =>
    intro x
    simp
  | cons a l ih =>
    intro x
    rw [List.foldl_cons]
    have hz := ih (if k x < k a then a else x)
    rcases List.mem_cons.mp hz with h1 | h1
    · rw [h1]
      by_cases h : k x < k a <;> simp [h]
    · exact List.mem_cons_of_mem x (List.mem_cons_of_mem a h1)

/-- The Python max-by fold returns a candidate of maximal key. -/
lemma foldl_maxBy_ge {β : Type} (k : β → ℚ) :
    ∀ (xs : List β) (x y : β), y ∈ x :: xs →
      k y ≤ k (xs.foldl (fun best c => if k best < k c then c else best) x) := by
  intro xs
  induction xs with
  | nil =>
    intro x y hy
    have hyx : y = x := by simpa using hy
    rw [hyx]
    exact le_refl _
  | cons a l ih =>
    intro x y hy
    rw [List.foldl_cons]
    have hxz : k x ≤ k (if k x < k a then a else x) := by
      by_cases h : k x < k a <;> simp [h]
      exact le_of_lt h
    have haz : k a ≤ k (if k x < k a then a else x) := by
      by_cases h : k x < k a <;> simp [h]
      exact le_of_not_lt h
    have hzf : k (if k x < k a then a else x)
        ≤ k (l.foldl (fun best c => if k best < k c then c else best)
          (if k x < k a then a else x)) :=
      ih _ _ (List.mem_cons_self _ l)
    rcases List.mem_cons.mp hy with rfl | hy2
    · exact le_trans hxz hzf
    · rcases List.mem_cons.mp hy2 with rfl | hy3
      · exact le_trans haz hzf
      · exact ih _ y (List.mem_cons_of_mem _ hy3)

/-- C9: the classifier Step 10 selects attains the maximum test accuracy
among the fixed set of trained student models — every trained name has
accuracy at most the best name's — and the artifact Step 11 serializes is
exactly the classifier the `models` dictionary binds to that best name. -/
theorem C9_best_model_selection {C : Type} (acc : String → ℚ)
    (models : String → C) :
    ∃ b, best_model_name acc = some b ∧ b ∈ model_names ∧
      (∀ nm ∈ model_names, acc nm ≤ acc b) ∧
      saved_model models acc = some (models b) := by
  refine ⟨_, rfl, ?_, ?_, ?_⟩
  · exact foldl_maxBy_mem acc _ _
  · intro nm hnm
    exact foldl_maxBy_ge acc _ _ nm hnm
  · rfl
